import Mathlib

/-
  Verification of the domino chain-and-placement model of the or-tools-fun
  repository.  The definitions below are shallow embeddings of:
    - src/domino/domino_cf.py   (DominoDigraph, DominoBraneSolver, SolutionManager)
    - src/domino/domino_circuit.py (SolutionPrinter chain loop)
    - src/digraph/circuit.py    (DiGraphSolver)
    - src/polyomino/polyomino.py (ShapeCollection normalisation / fixing)
  CP-SAT booleans are modelled as Bool, linear sums of booleans as counts of
  true entries, and the model itself as the list of constraints the builder
  registers, evaluated against an arbitrary assignment of the variables.
-/

namespace OrToolsFun

/-- Sum of a list of CP-SAT booleans: the number of true entries. -/
def trueCount (l : List Bool) : Nat := l.count true

/-! ## Chain reconstruction loop

The renderer (SolutionManager.on_solution_callback in domino_cf.py, and the
identical loop in domino_circuit.py SolutionPrinter) walks the used arcs:
starting from the first used arc it repeatedly removes the current arc from
the remaining list, appends its head to the result, and looks up the next
arc whose head equals the current tail.  The loop is modelled with explicit
fuel; the termination claim is exactly that the fuel bound len(used) is
never exhausted when the start arc lies in the list. -/

/-- Fuelled embedding of the Python loop
    while arc: used.remove(arc); result.append(arc[0]);
               arc = next((link for link in used if link[0] == arc[1]), None).
    Returns the result list together with the leftover (unused) arcs. -/
def chaseAux {α : Type} [DecidableEq α] :
    Nat → List (α × α) → (α × α) → List α × List (α × α)
  | 0, used, _ => ([], used)
  | fuel + 1, used, arc =>
    let rest := used.erase arc
    match rest.find? (fun link => link.1 == arc.2) with
    | none => ([arc.1], rest)
    | some nxt =>
      let r := chaseAux fuel rest nxt
      (arc.1 :: r.1, r.2)

/-- The chain loop run with its natural fuel bound: the number of used arcs. -/
def chase {α : Type} [DecidableEq α] (used : List (α × α)) (arc : α × α) :
    List α × List (α × α) :=
  chaseAux used.length used arc

/-- Diagnostic printed by the callback: len(set(result)) != len(result). -/
def dupFlag {α : Type} [DecidableEq α] (result : List α) : Bool :=
  result.dedup.length != result.length

/-- Diagnostic printed by the callback: the leftover list is nonempty. -/
def unusedFlag {α : Type} (rem : List (α × α)) : Bool :=
  !rem.isEmpty

/-- Arcs of a simple directed path v -> w1 -> ... -> wk -> last. -/
def pathArcs {α : Type} (v : α) : List α → α → List (α × α)
  | [], last => [(v, last)]
  | w :: ws, last => (v, w) :: pathArcs w ws last

/-- Arcs of the closed tour visiting the given nodes in order and returning
    to the first node: the shape a genuinely valid solution of the circuit
    model gives to its used-arc set. -/
def cycleArcs {α : Type} : List α → List (α × α)
  | [] => []
  | v :: vs => pathArcs v vs v

/-! ## The domino graph (DominoDigraph in domino_cf.py)

Python builds
  dominoes = set((x, y) for y in range(size+1) for x in range(y, size+1))
  fixed = {(a, b): {(a, b), (b, a)} for (a, b) in dominoes}
and, per domino d and fix d_fix, the tails list
  [o_fix for o, o_fixes in fixed.items() if o != d
         for o_fix in o_fixes if o_fix[0] == d_fix[1]].
Python sets of pairs are embedded as duplicate-free lists; claims about the
graph only concern membership, counts and duplicate-freedom, none of which
depend on the iteration order of a set. -/

/-- The double-size domino set: pairs (x, y) with y ≤ x ≤ size. -/
def dominoes (size : Nat) : List (Nat × Nat) :=
  (List.range (size + 1)).flatMap
    (fun y => (List.range' y (size + 1 - y)).map (fun x => (x, y)))

/-- The fixes of a domino: Python set {(a, b), (b, a)}, a single element for
    doubles. -/
def fixesOf (d : Nat × Nat) : List (Nat × Nat) :=
  if d.1 = d.2 then [d] else [d, (d.2, d.1)]

/-- Tails of fix dfix of domino d: every fix of every other domino whose
    leading value equals the trailing value of dfix. -/
def tailsFor (size : Nat) (d : Nat × Nat) (dfix : Nat × Nat) : List (Nat × Nat) :=
  (dominoes size).flatMap
    (fun o => if o ≠ d then (fixesOf o).filter (fun ofix => ofix.1 == dfix.2) else [])

/-- One entry of the three-layer graph dict: the domino, and for each of its
    fixes the list of potential tails. -/
structure PieceEntry where
  piece : Nat × Nat
  fixes : List ((Nat × Nat) × List (Nat × Nat))
deriving DecidableEq

/-- The graph built by DominoDigraph.__init__ in domino_cf.py. -/
def dominoGraph (size : Nat) : List PieceEntry :=
  (dominoes size).map
    (fun d => ⟨d, (fixesOf d).map (fun f => (f, tailsFor size d f))⟩)

/-! ## The CP-SAT model built by DominoBraneSolver

Variables are named by the BVar type; the builder output is the list of
constraints registered on the model, in registration order.  An assignment
is a function from variable names to Bool. -/

/-- Names of the boolean variables the builder creates. -/
inductive BVar where
  | fix (f : Nat × Nat)
  | arc (h t : Nat × Nat)
  | loop (f : Nat × Nat)
  | place (c : Int × Int) (f : Nat × Nat) (isHead : Bool)
deriving DecidableEq

/-- Constraint forms used by domino_cf.py, with CP-SAT meanings:
    sumEq is model.Add(sum(vars) == k); sumEqVar is
    model.Add(sum(vars) == sum([v])); boolOr is
    model.AddBoolOr(lits).OnlyEnforceIf(each enforcement literal);
    imp is AddImplication(a, b); impNot is AddImplication(a.Not(), b.Not());
    sumEqEnf is model.Add(sum(vars) == k).OnlyEnforceIf(e);
    circuit is model.AddCircuit(arcs). -/
inductive Constr where
  | sumEq (vars : List BVar) (k : Nat)
  | sumEqVar (vars : List BVar) (v : BVar)
  | boolOr (lits : List BVar) (enf : List BVar)
  | imp (a b : BVar)
  | impNot (a b : BVar)
  | sumEqEnf (vars : List BVar) (k : Nat) (e : BVar)
  | circuit (arcs : List (Nat × Nat × BVar))
deriving DecidableEq

/-- Every fix of every piece, in graph order: the keys of self.fixes. -/
def allFixes (G : List PieceEntry) : List (Nat × Nat) :=
  G.flatMap (fun pe => pe.fixes.map Prod.fst)

/-- The dense integer id AddCircuit needs: idx = {k: i for i, k in enumerate(self.fixes)}. -/
def fixIdx (G : List PieceEntry) (f : Nat × Nat) : Nat :=
  (allFixes G).indexOf f

/-- The non-self-loop arcs contributed by one piece (d_arcs in set_circuit). -/
def pieceArcs (G : List PieceEntry) (pe : PieceEntry) : List (Nat × Nat × BVar) :=
  pe.fixes.flatMap
    (fun hf => hf.2.map (fun t => (fixIdx G hf.1, fixIdx G t, BVar.arc hf.1 t)))

/-- All non-self-loop arcs handed to AddCircuit. -/
def circuitArcs (G : List PieceEntry) : List (Nat × Nat × BVar) :=
  G.flatMap (pieceArcs G)

/-- The self-loops contributed by one piece: one per fix-node, created only
    when the piece has more than one fix. -/
def pieceLoops (G : List PieceEntry) (pe : PieceEntry) : List (Nat × Nat × BVar) :=
  if 1 < pe.fixes.length then
    pe.fixes.map (fun hf => (fixIdx G hf.1, fixIdx G hf.1, BVar.loop hf.1))
  else []

/-- All self-loops handed to AddCircuit. -/
def circuitLoops (G : List PieceEntry) : List (Nat × Nat × BVar) :=
  G.flatMap (pieceLoops G)

/-- The four implications set_circuit adds per arc, tying arc booleans to
    fix-activity booleans. -/
def arcImplications (pe : PieceEntry) : List Constr :=
  pe.fixes.flatMap (fun hf => hf.2.flatMap (fun t =>
    [Constr.imp (BVar.arc hf.1 t) (BVar.fix hf.1),
     Constr.imp (BVar.arc hf.1 t) (BVar.fix t),
     Constr.impNot (BVar.fix hf.1) (BVar.arc hf.1 t),
     Constr.impNot (BVar.fix t) (BVar.arc hf.1 t)]))

/-- Constraints registered by DominoBraneSolver.set_circuit, in order: per
    piece the arc implications and sum(d_arcs) == 1, then
    sum(all arcs) == len(graph), then AddCircuit(arcs + loops). -/
def setCircuitCs (G : List PieceEntry) : List Constr :=
  (G.flatMap (fun pe =>
    arcImplications pe ++
      [Constr.sumEq ((pieceArcs G pe).map (fun a => a.2.2)) 1])) ++
  [Constr.sumEq ((circuitArcs G).map (fun a => a.2.2)) G.length] ++
  [Constr.circuit (circuitArcs G ++ circuitLoops G)]

/-- A space is the dict {(x, y): label-or-None}: an association list of cells
    to optional clue labels. -/
abbrev SpaceL : Type := List ((Int × Int) × Option Nat)

/-- Does the placement variable (cell with this label, fix, role) exist?
    Role true is the H variable (created when the label is None or equals b),
    role false the T variable (label None or equals a). -/
def roleDef (lab : Option Nat) (f : Nat × Nat) (isHead : Bool) : Bool :=
  match lab with
  | none => true
  | some v => if isHead then v == f.2 else v == f.1

/-- Label lookup: some lab when the cell is a key of the space dict. -/
def lookupCell (S : SpaceL) (c : Int × Int) : Option (Option Nat) :=
  (S.find? (fun e => e.1 == c)).map Prod.snd

/-- Existence of the placement variable keyed (x, y, a, b, role) in self.place. -/
def placeDefined (S : SpaceL) (c : Int × Int) (f : Nat × Nat) (isHead : Bool) : Bool :=
  match lookupCell S c with
  | none => false
  | some lab => roleDef lab f isHead

/-- The existing placement variables of one fix in one role, across the space
    (the sums of the connect-fixes-to-space constraints). -/
def roleVars (S : SpaceL) (f : Nat × Nat) (isHead : Bool) : List BVar :=
  S.filterMap (fun e =>
    if roleDef e.2 f isHead then some (BVar.place e.1 f isHead) else none)

/-- The existing placement variables at one cell, over every fix and both
    roles (the per-cell exact-cover sum). -/
def cellVars (G : List PieceEntry) (e : (Int × Int) × Option Nat) : List BVar :=
  (allFixes G).flatMap (fun f =>
    ([false, true] : List Bool).filterMap (fun r =>
      if roleDef e.2 f r then some (BVar.place e.1 f r) else none))

/-- The orthogonally adjacent cells of c that lie in the space:
    adj = [ij for ij in [(x-1,y),(x+1,y),(x,y-1),(x,y+1)] if ij in self.space]. -/
def adjCells (S : SpaceL) (c : Int × Int) : List (Int × Int) :=
  [(c.1 - 1, c.2), (c.1 + 1, c.2), (c.1, c.2 - 1), (c.1, c.2 + 1)].filter
    (fun ij => (lookupCell S ij).isSome)

/-- The existing T placement variables of fix f on cells adjacent to c: the
    disjuncts of both the tile-half adjacency and the glue BoolOr constraints. -/
def adjHalfVars (S : SpaceL) (c : Int × Int) (f : Nat × Nat) : List BVar :=
  (adjCells S c).filterMap (fun ij =>
    if placeDefined S ij f false then some (BVar.place ij f false) else none)

/-- The variables of the ambiguity-reduction sum: every existing placement on
    a cell adjacent to c whose fix leads with the trailing value of f. -/
def ambigVars (G : List PieceEntry) (S : SpaceL) (c : Int × Int) (f : Nat × Nat) :
    List BVar :=
  ([false, true] : List Bool).flatMap (fun r =>
    (adjCells S c).flatMap (fun ij =>
      (allFixes G).filterMap (fun uv =>
        if uv.1 == f.2 && placeDefined S ij uv r then some (BVar.place ij uv r)
        else none)))

/-- Constraints registered by DominoBraneSolver.set_placements, in order:
    the fixes-count hint, the per-fix head and tail sums, the per-cell
    exact-cover sums interleaved with the same-fix adjacency BoolOrs, the
    glue BoolOrs connecting arcs to placements, and the ambiguity-reduction
    sums. -/
def setPlacementsCs (G : List PieceEntry) (S : SpaceL) : List Constr :=
  [Constr.sumEq ((allFixes G).map BVar.fix) (S.length / 2)] ++
  ((allFixes G).flatMap (fun f =>
    [Constr.sumEqVar (roleVars S f true) (BVar.fix f),
     Constr.sumEqVar (roleVars S f false) (BVar.fix f)])) ++
  (S.flatMap (fun e =>
    Constr.sumEq (cellVars G e) 1 ::
      (allFixes G).filterMap (fun f =>
        if roleDef e.2 f true then
          some (Constr.boolOr (adjHalfVars S e.1 f) [BVar.place e.1 f true])
        else none))) ++
  (G.flatMap (fun pe => pe.fixes.flatMap (fun hf => hf.2.flatMap (fun t =>
    S.filterMap (fun e =>
      if roleDef e.2 hf.1 true then
        some (Constr.boolOr (adjHalfVars S e.1 t)
          [BVar.place e.1 hf.1 true, BVar.arc hf.1 t])
      else none))))) ++
  (S.flatMap (fun e => (allFixes G).filterMap (fun f =>
    if roleDef e.2 f true then
      some (Constr.sumEqEnf (ambigVars G S e.1 f)
        (if f.1 = f.2 then 2 else 1) (BVar.place e.1 f true))
    else none)))

/-- The complete model of DominoBraneSolver.setup: set_circuit then
    set_placements. -/
def buildModel (G : List PieceEntry) (S : SpaceL) : List Constr :=
  setCircuitCs G ++ setPlacementsCs G S

/-- Count of true outgoing arcs of node n under assignment sig. -/
def outgoingCount (sig : BVar → Bool) (arcs : List (Nat × Nat × BVar)) (n : Nat) :
    Nat :=
  trueCount ((arcs.filter (fun a => a.1 == n)).map (fun a => sig a.2.2))

/-- Count of true incoming arcs of node n under assignment sig. -/
def incomingCount (sig : BVar → Bool) (arcs : List (Nat × Nat × BVar)) (n : Nat) :
    Nat :=
  trueCount ((arcs.filter (fun a => a.2.1 == n)).map (fun a => sig a.2.2))

/-- The nodes mentioned by an AddCircuit arc list. -/
def circuitNodes (arcs : List (Nat × Nat × BVar)) : List Nat :=
  (arcs.map (fun a => a.1) ++ arcs.map (fun a => a.2.1)).dedup

/-- The fragment of the contract of the external AddCircuit primitive that
    the claims rely on (or-tools CP-SAT documentation, and spec section 4.3):
    every node of the arc list carries exactly one true outgoing and exactly
    one true incoming arc, self-loops included.  The further single-tour
    requirement is not needed by any claim and is omitted; omitting it only
    enlarges the set of admitted assignments, so every theorem below also
    holds of the real, stricter primitive. -/
def circuitSat (sig : BVar → Bool) (arcs : List (Nat × Nat × BVar)) : Prop :=
  ∀ n ∈ circuitNodes arcs, outgoingCount sig arcs n = 1 ∧ incomingCount sig arcs n = 1

/-- Truth of one constraint under an assignment. -/
def evalC (sig : BVar → Bool) : Constr → Prop
  | .sumEq vars k => trueCount (vars.map sig) = k
  | .sumEqVar vars v => trueCount (vars.map sig) = trueCount [sig v]
  | .boolOr lits enf => (∀ e ∈ enf, sig e = true) → ∃ l ∈ lits, sig l = true
  | .imp a b => sig a = true → sig b = true
  | .impNot a b => sig a = false → sig b = false
  | .sumEqEnf vars k e => sig e = true → trueCount (vars.map sig) = k
  | .circuit arcs => circuitSat sig arcs

/-- An assignment satisfies the built model when it satisfies every
    registered constraint. -/
def modelSat (G : List PieceEntry) (S : SpaceL) (sig : BVar → Bool) : Prop :=
  ∀ c ∈ buildModel G S, evalC sig c

/-- Contribution of one (cell, fix, role) triple to a placement sum: 1 when
    the placement variable exists and is true, 0 otherwise. -/
def placeTerm (sig : BVar → Bool) (e : (Int × Int) × Option Nat)
    (f : Nat × Nat) (r : Bool) : Nat :=
  if roleDef e.2 f r then (if sig (BVar.place e.1 f r) then 1 else 0) else 0

/-- Rectangular unlabelled region, Python Space semantics:
    {(x, y): None for y in range(sy) for x in range(sx)}. -/
def regionCells (sx sy : Nat) : SpaceL :=
  (List.range sy).flatMap (fun (y : Nat) =>
    (List.range sx).map (fun (x : Nat) =>
      (((x : Int), (y : Int)), (none : Option Nat))))

/-- The 3-piece graph of piece-size 1: pieces (0,0), (1,0), (1,1). -/
def demoGraph : List PieceEntry := dominoGraph 1

/-- The 2 by 3 unlabelled region of concrete scenario A. -/
def demoSpace : SpaceL := regionCells 2 3

/-- The 1 by 5 unlabelled region of concrete scenario B: five cells, odd. -/
def oddSpace : SpaceL := regionCells 1 5

/-! ## Orientation canonicalisation (ShapeCollection in polyomino.py) -/

/-- Column i of the normalised grid enumeration: the pairs (i, j) over
    j < h whose translate (lx + i, ly + j) is a point of the input. -/
def normRow (d : List (Int × Int)) (lx ly : Int) (h : Nat) (i : Nat) :
    List (Int × Int) :=
  (List.range h).filterMap (fun (j : Nat) =>
    if (lx + (i : Int), ly + (j : Int)) ∈ d then some ((i : Int), (j : Int))
    else none)

/-- The x-major enumeration res = [[x, y] for x in range(bx-lx)
    for y in range(by-ly) if grid[x][y]] of _normalise_pts_. -/
def normGrid (d : List (Int × Int)) (lx ly : Int) (w h : Nat) :
    List (Int × Int) :=
  (List.range w).flatMap (normRow d lx ly h)

/-- Embedding of ShapeCollection._normalise_pts_: translate the point list to
    a minimal non-negative bounding origin and enumerate the occupied grid
    cells in x-major order.  An output pair (i, j) appears exactly when
    (lx + i, ly + j) is a point of the input. -/
def normalisePts (d : List (Int × Int)) : List (Int × Int) :=
  match d with
  | [] => []
  | p :: _ =>
    normGrid d
      ((d.map (fun q => q.1)).foldl min p.1)
      ((d.map (fun q => q.2)).foldl min p.2)
      ((d.map (fun q => q.1)).foldl max p.1 + 1
        - (d.map (fun q => q.1)).foldl min p.1).toNat
      ((d.map (fun q => q.2)).foldl max p.2 + 1
        - (d.map (fun q => q.2)).foldl min p.2).toNat

/-- Embedding of ShapeCollection._square_p: the eight elements of the square
    symmetry group, selected by p modulo 8. -/
def squareP (p : Nat) (pts : List (Int × Int)) : List (Int × Int) :=
  pts.map (fun q =>
    match p % 8 with
    | 0 => (q.1, q.2)
    | 1 => (-q.2, q.1)
    | 2 => (-q.1, -q.2)
    | 3 => (q.2, -q.1)
    | 4 => (q.2, q.1)
    | 5 => (-q.1, q.2)
    | 6 => (-q.2, -q.1)
    | _ => (q.1, -q.2))

/-- Embedding of ShapeCollection.fix for one shape: normalise each of the
    eight symmetry images of the normalised base shape and deduplicate by
    content.  The Python code keys the restrict dict by hash(str(fix));
    str is injective on the canonical normalised lists, so the key is
    content-based and is embedded as the list itself. -/
def fixOrientations (base : List (Int × Int)) : List (List (Int × Int)) :=
  ((List.range 8).map (fun f => normalisePts (squareP f base))).dedup

/-- Strict lexicographic order on grid points, x major: the order in which
    normalisePts enumerates its output. -/
def lexLt (p q : Int × Int) : Prop :=
  p.1 < q.1 ∨ (p.1 = q.1 ∧ p.2 < q.2)

instance lexLt_isAntisymm : IsAntisymm (Int × Int) lexLt := by
  refine ⟨?_⟩
  intro a b h1 h2
  rcases a with ⟨a1, a2⟩
  rcases b with ⟨b1, b2⟩
  simp only [lexLt] at h1 h2
  have hc : a1 = b1 ∧ a2 = b2 := by omega
  simp [Prod.ext_iff, hc.1, hc.2]

theorem pathArcs_ne_nil {α : Type} (v : α) (vs : List α) (last : α) :
    pathArcs v vs last ≠ [] := by
  cases vs <;> simp [pathArcs]

theorem pathArcs_length {α : Type} (vs : List α) :
    ∀ (v last : α), (pathArcs v vs last).length = vs.length + 1 := by
  induction vs with
  | nil => intro v last; simp [pathArcs]
  | cons w ws ih => intro v last; simp [pathArcs, ih w last]

theorem pathArcs_head {α : Type} (v : α) (vs : List α) (last : α) :
    (pathArcs v vs last).head (pathArcs_ne_nil v vs last) = (v, vs.headD last) := by
  cases vs <;> simp [pathArcs]

theorem pathArcs_append {α : Type} :
    ∀ (xs : List α) (v w : α) (ys : List α) (last : α),
      pathArcs v (xs ++ w :: ys) last = pathArcs v xs w ++ pathArcs w ys last := by
  intro xs
  induction xs with
  | nil =>
    intro v w ys last
    simp [pathArcs]
  | cons x xs ih =>
    intro v w ys last
    simp only [List.cons_append, pathArcs]
    exact congrArg (List.cons (v, x)) (ih x w ys last)

theorem perm_erase {β : Type} [BEq β] [LawfulBEq β] (a : β) :
    ∀ {l₁ l₂ : List β}, l₁.Perm l₂ → (l₁.erase a).Perm (l₂.erase a) := by
  intro l₁ l₂ h
  induction h with
  | nil => simp
  | cons x h ih =>
    rw [List.erase_cons, List.erase_cons]
    cases hx : x == a with
    | true => simpa [hx] using h
    | false =>
      simp only [hx, Bool.false_eq_true, if_false]
      exact ih.cons x
  | swap x y l =>
    rw [List.erase_cons, List.erase_cons]
    cases hy : y == a with
    | true =>
      cases hx : x == a with
      | true =>
        have h1 : y = a := eq_of_beq hy
        have h2 : x = a := eq_of_beq hx
        simp [hx, hy, h1, h2]
      | false =>
        simp [hx, hy, List.erase_cons]
    | false =>
      cases hx : x == a with
      | true => simp [hx, hy, List.erase_cons]
      | false =>
        simp only [hx, hy, Bool.false_eq_true, if_false, List.erase_cons]
        exact List.Perm.swap x y _
  | trans h1 h2 ih1 ih2 => exact ih1.trans ih2

theorem pathArcs_heads {α : Type} :
    ∀ (vs : List α) (v last : α) (y : α × α),
      y ∈ pathArcs v vs last → y.1 ∈ v :: vs := by
  intro vs
  induction vs with
  | nil =>
    intro v last y hy
    simp only [pathArcs, List.mem_singleton] at hy
    rw [hy]
    simp
  | cons u ws ih =>
    intro v last y hy
    rcases List.mem_cons.mp hy with h | h
    · rw [h]
      simp
    · rcases List.mem_cons.mp (ih u last y h) with h2 | h2
      · rw [h2]
        simp
      · exact List.mem_cons_of_mem _ (List.mem_cons_of_mem _ h2)

theorem pathArcs_head_unique {α : Type} (vs : List α) (v last : α)
    (y : α × α) (hnd : (v :: vs).Nodup) (hy : y ∈ pathArcs v vs last)
    (h1 : y.1 = v) : y = (v, vs.headD last) := by
  cases vs with
  | nil =>
    simp only [pathArcs, List.mem_singleton] at hy
    rw [hy]
    rfl
  | cons u ws =>
    rcases List.mem_cons.mp hy with h | h
    · rw [h]
      rfl
    · exfalso
      have h2 := pathArcs_heads ws u last y h
      rw [h1] at h2
      exact (List.nodup_cons.mp hnd).1 h2

theorem find?_unique {α : Type} (p : α → Bool) :
    ∀ (l : List α) (x : α), x ∈ l → p x = true →
      (∀ y ∈ l, p y = true → y = x) → l.find? p = some x := by
  intro l
  induction l with
  | nil =>
    intro x hx _ _
    cases hx
  | cons a l ih =>
    intro x hx hp huniq
    cases ha : p a with
    | true =>
      rw [List.find?_cons_of_pos l ha]
      rw [huniq a (List.mem_cons_self a l) ha]
    | false =>
      rw [List.find?_cons_of_neg l (by rw [ha]; exact Bool.false_ne_true)]
      have hx2 : x ∈ l := by
        rcases List.mem_cons.mp hx with h | h
        · rw [h] at hp
          rw [hp] at ha
          cases ha
        · exact h
      exact ih x hx2 hp (fun y hy hpy => huniq y (List.mem_cons_of_mem _ hy) hpy)

theorem chaseAux_perm_path {α : Type} [DecidableEq α] (s : α) :
    ∀ (ws : List α) (w : α) (rem : List (α × α)) (fuel : Nat),
      rem.Perm (pathArcs w ws s) → (w :: ws).Nodup → ws.length + 1 ≤ fuel →
      chaseAux fuel rem (w, ws.headD s) = (w :: ws, []) := by
  intro ws
  induction ws with
  | nil =>
    intro w rem fuel hperm hnd hfuel
    have hrem : rem = [(w, s)] := by
      apply List.perm_singleton.mp
      simpa [pathArcs] using hperm
    subst hrem
    match fuel, hfuel with
    | fuel + 1, _ =>
      simp [chaseAux, List.erase_cons_head]
  | cons u ws ih =>
    intro w rem fuel hperm hnd hfuel
    match fuel, hfuel with
    | fuel + 1, hfuel =>
      have hrest : (rem.erase (w, u)).Perm (pathArcs u ws s) := by
        have h := perm_erase (w, u) hperm
        simpa [pathArcs, List.erase_cons_head] using h
      have hx_mem : (u, ws.headD s) ∈ rem.erase (w, u) := by
        rw [hrest.mem_iff]
        rw [← pathArcs_head u ws s]
        exact List.head_mem (pathArcs_ne_nil u ws s)
      have hfind : (rem.erase (w, u)).find? (fun link => link.1 == u)
          = some (u, ws.headD s) := by
        apply find?_unique _ _ _ hx_mem (by simp)
        intro y hy hpy
        have hy2 : y ∈ pathArcs u ws s := hrest.mem_iff.mp hy
        have hy1 : y.1 = u := by simpa using hpy
        exact pathArcs_head_unique ws u s y (List.nodup_cons.mp hnd).2 hy2 hy1
      have hle : ws.length + 1 ≤ fuel := by
        simpa [Nat.succ_le_succ_iff] using hfuel
      simp only [chaseAux, List.headD_cons, hfind]
      rw [ih u (rem.erase (w, u)) fuel hrest (List.nodup_cons.mp hnd).2 hle]

theorem chaseAux_fuel_eq {α : Type} [DecidableEq α] :
    ∀ (fuel : Nat) (used : List (α × α)) (arc : α × α) (fuel2 : Nat),
      arc ∈ used → used.length ≤ fuel → used.length ≤ fuel2 →
      chaseAux fuel used arc = chaseAux fuel2 used arc := by
  intro fuel
  induction fuel with
  | zero =>
    intro used arc fuel2 hmem hle _
    have : used = [] := List.eq_nil_of_length_eq_zero (Nat.le_zero.mp hle)
    subst this
    cases hmem
  | succ f ih =>
    intro used arc fuel2 hmem hle hle2
    have hpos : 1 ≤ used.length :=
      List.length_pos.mpr (List.ne_nil_of_mem hmem)
    cases fuel2 with
    | zero => exact absurd (le_trans hpos hle2) (by decide)
    | succ f2 =>
      simp only [chaseAux]
      cases hfind : (used.erase arc).find? (fun link => link.1 == arc.2) with
      | none => rfl
      | some nxt =>
        have hnm : nxt ∈ used.erase arc := List.mem_of_find?_eq_some hfind
        have hlen : (used.erase arc).length = used.length - 1 :=
          List.length_erase_of_mem hmem
        have h1 : (used.erase arc).length ≤ f := by omega
        have h2 : (used.erase arc).length ≤ f2 := by omega
        dsimp only
        rw [ih _ nxt f2 hnm h1 h2]

theorem chaseAux_length {α : Type} [DecidableEq α] :
    ∀ (fuel : Nat) (used : List (α × α)) (arc : α × α),
      arc ∈ used → used.length ≤ fuel →
      (chaseAux fuel used arc).1.length + (chaseAux fuel used arc).2.length
        = used.length := by
  intro fuel
  induction fuel with
  | zero =>
    intro used arc hmem hle
    have : used = [] := List.eq_nil_of_length_eq_zero (Nat.le_zero.mp hle)
    subst this
    cases hmem
  | succ f ih =>
    intro used arc hmem hle
    have hlen : (used.erase arc).length = used.length - 1 :=
      List.length_erase_of_mem hmem
    have hpos : 1 ≤ used.length :=
      List.length_pos.mpr (List.ne_nil_of_mem hmem)
    simp only [chaseAux]
    cases hfind : (used.erase arc).find? (fun link => link.1 == arc.2) with
    | none =>
      simp only [List.length_cons, List.length_nil]
      omega
    | some nxt =>
      have hnm : nxt ∈ used.erase arc := List.mem_of_find?_eq_some hfind
      have h1 : (used.erase arc).length ≤ f := by omega
      have := ih (used.erase arc) nxt hnm h1
      simp only [List.length_cons]
      omega

/-- Claim C10: the chain-following loop of the renderer terminates on every
    finite non-empty used-arc list whether or not the arcs form a valid
    circuit: each iteration first removes the current arc from the remaining
    list, so len(used) iterations of fuel always suffice (any larger fuel
    gives the same output), and the loop performs result-many iterations
    with result plus leftover accounting for exactly the original arcs. -/
theorem chase_loop_terminates {α : Type} [DecidableEq α]
    (used : List (α × α)) (arc : α × α) (h : used.head? = some arc) :
    (∀ fuel, used.length ≤ fuel → chaseAux fuel used arc = chase used arc) ∧
    (chase used arc).1.length + (chase used arc).2.length = used.length ∧
    (chase used arc).1.length ≤ used.length := by
  have hmem : arc ∈ used := List.mem_of_mem_head? h
  refine ⟨fun fuel hf => chaseAux_fuel_eq fuel used arc used.length hmem hf le_rfl,
    ?_, ?_⟩
  · exact chaseAux_length used.length used arc hmem le_rfl
  · have h2 := chaseAux_length used.length used arc hmem le_rfl
    unfold chase
    omega

/-- Witness for claim C10 at the concrete two-arc list [(0,1), (1,0)]. -/
theorem chase_loop_terminates_witness :
    (([((0 : Nat), (1 : Nat)), ((1 : Nat), (0 : Nat))] :
        List (Nat × Nat)).head? = some ((0 : Nat), (1 : Nat))) ∧
    ((∀ fuel, ([((0 : Nat), (1 : Nat)), ((1 : Nat), (0 : Nat))] :
        List (Nat × Nat)).length ≤ fuel →
      chaseAux fuel [((0 : Nat), (1 : Nat)), ((1 : Nat), (0 : Nat))]
          ((0 : Nat), (1 : Nat))
        = chase [((0 : Nat), (1 : Nat)), ((1 : Nat), (0 : Nat))]
            ((0 : Nat), (1 : Nat))) ∧
    (chase [((0 : Nat), (1 : Nat)), ((1 : Nat), (0 : Nat))]
        ((0 : Nat), (1 : Nat))).1.length
      + (chase [((0 : Nat), (1 : Nat)), ((1 : Nat), (0 : Nat))]
          ((0 : Nat), (1 : Nat))).2.length
      = ([((0 : Nat), (1 : Nat)), ((1 : Nat), (0 : Nat))] :
          List (Nat × Nat)).length ∧
    (chase [((0 : Nat), (1 : Nat)), ((1 : Nat), (0 : Nat))]
        ((0 : Nat), (1 : Nat))).1.length
      ≤ ([((0 : Nat), (1 : Nat)), ((1 : Nat), (0 : Nat))] :
          List (Nat × Nat)).length) :=
  ⟨by decide, chase_loop_terminates _ _ (by decide)⟩

/-- Claim C2: on a genuinely valid solution, whose used arcs are — in
    whatever order the renderer happens to collect them from the graph —
    exactly the arcs of one closed tour over the distinct active fixes, the
    arc-following loop starting at the first used arc appends each fix
    exactly once (the result is a duplicate-free permutation of the tour
    nodes, namely the tour rotated to start at the first arc), consumes
    every used arc (empty leftover), and neither of the two diagnostics
    that the callback reports separately from solver infeasibility
    (duplicates found, unused arcs) fires. -/
theorem chain_reconstruction_round_trip {α : Type} [DecidableEq α]
    (used : List (α × α)) (v : α) (vs : List α) (first : α × α)
    (hvalid : used.Perm (cycleArcs (v :: vs))) (hnd : (v :: vs).Nodup)
    (hfirst : used.head? = some first) :
    (chase used first).1.Perm (v :: vs) ∧
    (chase used first).1.Nodup ∧
    (chase used first).1.length = (v :: vs).length ∧
    (chase used first).2 = [] ∧
    dupFlag (chase used first).1 = false ∧
    unusedFlag (chase used first).2 = false := by
  have hfmem : first ∈ used := List.mem_of_mem_head? hfirst
  have hfcyc : first ∈ pathArcs v vs v := by
    have h := hvalid.mem_iff.mp hfmem
    simpa [cycleArcs] using h
  have hhead : first.1 ∈ v :: vs := pathArcs_heads vs v v first hfcyc
  obtain ⟨pre, post, hsplit⟩ := List.append_of_mem hhead
  have hre : (cycleArcs (v :: vs)).Perm (pathArcs first.1 (post ++ pre) first.1) := by
    cases pre with
    | nil =>
      simp only [List.nil_append] at hsplit
      have hv : v = first.1 := (List.cons.injEq _ _ _ _ ▸ hsplit).1
      have hvs : vs = post := (List.cons.injEq _ _ _ _ ▸ hsplit).2
      rw [cycleArcs, hv, hvs, List.append_nil]
    | cons v2 pre2 =>
      have hv : v = v2 := by
        have := congrArg (fun l => l.head? ) hsplit
        simpa using this
      have hvs : vs = pre2 ++ first.1 :: post := by
        have := congrArg List.tail hsplit
        simpa using this
      subst hv
      rw [cycleArcs, hvs, pathArcs_append pre2 v first.1 post v]
      have h2 : pathArcs first.1 (post ++ v :: pre2) first.1
          = pathArcs first.1 post v ++ pathArcs v pre2 first.1 :=
        pathArcs_append post first.1 v pre2 first.1
      rw [h2]
      exact List.perm_append_comm
  have hT : (first.1 :: (post ++ pre)).Perm (v :: vs) := by
    rw [hsplit]
    have h1 : first.1 :: (post ++ pre) = (first.1 :: post) ++ pre := by
      simp
    rw [h1]
    exact List.perm_append_comm
  have hndT : (first.1 :: (post ++ pre)).Nodup := hT.nodup_iff.mpr hnd
  have husedP : used.Perm (pathArcs first.1 (post ++ pre) first.1) :=
    hvalid.trans hre
  have hfeq : first = (first.1, (post ++ pre).headD first.1) :=
    pathArcs_head_unique (post ++ pre) first.1 first.1 first hndT
      (husedP.mem_iff.mp hfmem) rfl
  have hlen : used.length = (post ++ pre).length + 1 := by
    rw [husedP.length_eq, pathArcs_length]
  have hmain : chase used first = (first.1 :: (post ++ pre), []) := by
    rw [chase, hfeq]
    exact chaseAux_perm_path first.1 (post ++ pre) first.1 used used.length
      husedP hndT (by omega)
  refine ⟨?_, ?_, ?_, ?_, ?_, ?_⟩
  · rw [hmain]
    exact hT
  · rw [hmain]
    exact hndT
  · rw [hmain]
    exact hT.length_eq
  · rw [hmain]
  · rw [hmain]
    simp [dupFlag, List.dedup_eq_self.mpr hndT]
  · rw [hmain]
    simp [unusedFlag]

/-- Witness for claim C2 on the tour 0 -> 1 -> 2 -> 0 with the used arcs
    collected out of tour order, as graph iteration may produce them. -/
theorem chain_reconstruction_round_trip_witness :
    (([((1 : Nat), (2 : Nat)), (0, 1), (2, 0)] : List (Nat × Nat)).Perm
        (cycleArcs [0, 1, 2])) ∧
    (([(0 : Nat), 1, 2] : List Nat).Nodup) ∧
    (([((1 : Nat), (2 : Nat)), (0, 1), (2, 0)] : List (Nat × Nat)).head?
        = some (1, 2)) ∧
    ((chase ([((1 : Nat), (2 : Nat)), (0, 1), (2, 0)] : List (Nat × Nat))
        (1, 2)).1.Perm [0, 1, 2] ∧
    (chase ([((1 : Nat), (2 : Nat)), (0, 1), (2, 0)] : List (Nat × Nat))
        (1, 2)).1.Nodup ∧
    (chase ([((1 : Nat), (2 : Nat)), (0, 1), (2, 0)] : List (Nat × Nat))
        (1, 2)).1.length = ([(0 : Nat), 1, 2] : List Nat).length ∧
    (chase ([((1 : Nat), (2 : Nat)), (0, 1), (2, 0)] : List (Nat × Nat))
        (1, 2)).2 = [] ∧
    dupFlag (chase ([((1 : Nat), (2 : Nat)), (0, 1), (2, 0)] :
        List (Nat × Nat)) (1, 2)).1 = false ∧
    unusedFlag (chase ([((1 : Nat), (2 : Nat)), (0, 1), (2, 0)] :
        List (Nat × Nat)) (1, 2)).2 = false) :=
  ⟨by decide, by decide, by decide,
    chain_reconstruction_round_trip _ 0 [1, 2] (1, 2) (by decide) (by decide)
      (by decide)⟩

theorem mem_dominoes (size : Nat) (p : Nat × Nat) :
    p ∈ dominoes size ↔ p.2 ≤ p.1 ∧ p.1 ≤ size := by
  cases p with
  | mk x y =>
    simp only [dominoes, List.mem_flatMap, List.mem_range, List.mem_map,
      List.mem_range'_1, Prod.mk.injEq]
    constructor
    · rintro ⟨y1, hy1, x1, hx1, hx, hy⟩
      subst hx
      subst hy
      omega
    · rintro ⟨h1, h2⟩
      exact ⟨y, by omega, x, by omega, rfl, rfl⟩

theorem dominoes_nodup (size : Nat) : (dominoes size).Nodup := by
  unfold dominoes
  apply List.nodup_flatMap.mpr
  refine ⟨?_, ?_⟩
  · intro y _
    exact List.Nodup.map (fun a b h => by simpa using congrArg Prod.fst h)
      (List.nodup_range' _ _)
  · refine (List.pairwise_lt_range _).imp ?_
    intro a b hab
    intro q hqa hqb
    simp only [List.mem_map] at hqa hqb
    obtain ⟨x1, _, hq1⟩ := hqa
    obtain ⟨x2, _, hq2⟩ := hqb
    have : a = b := by
      have h1 := congrArg Prod.snd hq1
      have h2 := congrArg Prod.snd hq2
      simp only at h1 h2
      omega
    omega

theorem mem_fixesOf (d f : Nat × Nat) :
    f ∈ fixesOf d ↔ f = d ∨ f = (d.2, d.1) := by
  unfold fixesOf
  split
  · rename_i h
    cases d with
    | mk a b =>
      simp only at h
      subst h
      simp [or_self_iff]
  · simp

theorem fixesOf_nodup (d : Nat × Nat) : (fixesOf d).Nodup := by
  unfold fixesOf
  split
  · simp
  · rename_i h
    cases d with
    | mk a b =>
      simp only at h
      simp only [List.nodup_cons, List.mem_singleton, List.nodup_cons,
        List.not_mem_nil, not_false_iff, List.nodup_nil, and_true]
      intro hc
      have := congrArg Prod.fst hc
      have := congrArg Prod.snd hc
      simp_all

theorem fixesOf_disjoint {o d : Nat × Nat} (ho : o.2 ≤ o.1) (hd : d.2 ≤ d.1)
    (hne : o ≠ d) : ∀ f ∈ fixesOf o, f ∉ fixesOf d := by
  intro f hfo hfd
  rw [mem_fixesOf] at hfo hfd
  apply hne
  cases o with
  | mk o1 o2 =>
    cases d with
    | mk d1 d2 =>
      cases f with
      | mk f1 f2 =>
        simp only [Prod.mk.injEq] at hfo hfd ⊢
        simp only at ho hd
        omega

theorem mem_tailsFor (size : Nat) (d dfix ofix : Nat × Nat) :
    ofix ∈ tailsFor size d dfix ↔
      ∃ o ∈ dominoes size, o ≠ d ∧ ofix ∈ fixesOf o ∧ ofix.1 = dfix.2 := by
  simp only [tailsFor, List.mem_flatMap]
  constructor
  · rintro ⟨o, ho, hmem⟩
    by_cases h : o ≠ d
    · rw [if_pos h] at hmem
      obtain ⟨hin, hbeq⟩ := List.mem_filter.mp hmem
      exact ⟨o, ho, h, hin, by simpa using hbeq⟩
    · rw [if_neg h] at hmem
      cases hmem
  · rintro ⟨o, ho, hne, hin, heq⟩
    refine ⟨o, ho, ?_⟩
    rw [if_pos hne]
    exact List.mem_filter.mpr ⟨hin, by simpa using heq⟩

theorem tailsFor_nodup (size : Nat) (d dfix : Nat × Nat) :
    (tailsFor size d dfix).Nodup := by
  unfold tailsFor
  apply List.nodup_flatMap.mpr
  refine ⟨?_, ?_⟩
  · intro o _
    split
    · exact (fixesOf_nodup o).filter _
    · exact List.nodup_nil
  · have hnd := dominoes_nodup size
    refine List.Pairwise.imp_of_mem ?_ hnd
    intro o1 o2 h1 h2 hne
    intro f hf1 hf2
    simp only [Function.onFun] at hf1 hf2
    by_cases e1 : o1 ≠ d
    · by_cases e2 : o2 ≠ d
      · rw [if_pos e1] at hf1
        rw [if_pos e2] at hf2
        have m1 := (List.mem_filter.mp hf1).1
        have m2 := (List.mem_filter.mp hf2).1
        have hn1 := (mem_dominoes size o1).mp h1
        have hn2 := (mem_dominoes size o2).mp h2
        exact fixesOf_disjoint hn1.1 hn2.1 hne f m1 m2
      · rw [if_neg e2] at hf2
        cases hf2
    · rw [if_neg e1] at hf1
      cases hf1

/-- Claim C7: in the graph built by DominoDigraph, a fix ofix of piece o
    appears in the tails list of fix dfix of piece d exactly when the two
    pieces differ and the leading value of ofix equals the trailing value of
    dfix, and every tails list is duplicate-free, so no two arcs connect the
    same ordered pair of fix-nodes. -/
theorem arc_set_construction (size : Nat) (dpe ope : PieceEntry)
    (hd : dpe ∈ dominoGraph size) (ho : ope ∈ dominoGraph size)
    (dfx : (Nat × Nat) × List (Nat × Nat)) (hdf : dfx ∈ dpe.fixes)
    (ofix : Nat × Nat) (hof : ofix ∈ ope.fixes.map Prod.fst) :
    (ofix ∈ dfx.2 ↔ (ope.piece ≠ dpe.piece ∧ ofix.1 = dfx.1.2)) ∧
    dfx.2.Nodup := by
  simp only [dominoGraph, List.mem_map] at hd ho
  obtain ⟨d, hdmem, hdeq⟩ := hd
  obtain ⟨o, homem, hoeq⟩ := ho
  subst hdeq
  subst hoeq
  simp only [List.mem_map] at hdf
  obtain ⟨f, hfmem, hfeq⟩ := hdf
  subst hfeq
  simp only [List.map_map, List.mem_map] at hof
  obtain ⟨of2, hof2, hofeq⟩ := hof
  simp only [Function.comp] at hofeq
  subst hofeq
  refine ⟨?_, tailsFor_nodup size d f⟩
  rw [mem_tailsFor]
  constructor
  · rintro ⟨o2, ho2, hne2, hin2, heq2⟩
    have hno : o.2 ≤ o.1 := ((mem_dominoes size o).mp homem).1
    have hno2 : o2.2 ≤ o2.1 := ((mem_dominoes size o2).mp ho2).1
    have : o2 = o := by
      by_contra hc
      exact fixesOf_disjoint hno2 hno hc of2 hin2 hof2
    subst this
    exact ⟨hne2, heq2⟩
  · rintro ⟨hne, heq⟩
    exact ⟨o, homem, hne, hof2, heq⟩

/-- Witness for claim C7: the (0, 0) fix of the (0, 0) domino sits in the
    tails of the (1, 0) fix of the (1, 0) domino of the size-1 graph. -/
theorem arc_set_construction_witness :
    (⟨(1, 0), [((1, 0), [(0, 0)]), ((0, 1), [(1, 1)])]⟩ : PieceEntry)
        ∈ dominoGraph 1 ∧
    (⟨(0, 0), [((0, 0), [(0, 1)])]⟩ : PieceEntry) ∈ dominoGraph 1 ∧
    (((1 : Nat), (0 : Nat)), [((0 : Nat), (0 : Nat))])
        ∈ (⟨(1, 0), [((1, 0), [(0, 0)]), ((0, 1), [(1, 1)])]⟩ : PieceEntry).fixes ∧
    ((0 : Nat), (0 : Nat))
        ∈ (⟨(0, 0), [((0, 0), [(0, 1)])]⟩ : PieceEntry).fixes.map Prod.fst ∧
    ((((0 : Nat), (0 : Nat)) ∈ [((0 : Nat), (0 : Nat))] ↔
      ((⟨(0, 0), [((0, 0), [(0, 1)])]⟩ : PieceEntry).piece
          ≠ (⟨(1, 0), [((1, 0), [(0, 0)]), ((0, 1), [(1, 1)])]⟩ : PieceEntry).piece ∧
        ((0 : Nat), (0 : Nat)).1
          = (((1 : Nat), (0 : Nat)), [((0 : Nat), (0 : Nat))]).1.2)) ∧
    ([((0 : Nat), (0 : Nat))] : List (Nat × Nat)).Nodup) :=
  ⟨by decide, by decide, by decide, by decide,
    arc_set_construction 1
      ⟨(1, 0), [((1, 0), [(0, 0)]), ((0, 1), [(1, 1)])]⟩
      ⟨(0, 0), [((0, 0), [(0, 1)])]⟩
      (by decide) (by decide)
      (((1 : Nat), (0 : Nat)), [((0 : Nat), (0 : Nat))]) (by decide)
      ((0 : Nat), (0 : Nat)) (by decide)⟩

theorem loop_beq (x f : Nat × Nat) :
    (BVar.loop x == BVar.loop f) = (x == f) := by
  rw [Bool.eq_iff_iff]
  simp [beq_iff_eq]

theorem count_eq_one_of_nodup_mem {α : Type} [BEq α] [LawfulBEq α] {a : α}
    {l : List α} (hnd : l.Nodup) (h : a ∈ l) : l.count a = 1 := by
  induction l with
  | nil => cases h
  | cons b l ih =>
    rw [List.count_cons]
    rcases List.mem_cons.mp h with h1 | h1
    · subst h1
      have hnm : a ∉ l := (List.nodup_cons.mp hnd).1
      rw [List.count_eq_zero.mpr hnm]
      simp
    · have hne : a ≠ b := by
        rintro rfl
        exact (List.nodup_cons.mp hnd).1 h1
      rw [ih (List.nodup_cons.mp hnd).2 h1]
      simp [hne, Ne.symm hne]

theorem countP_pieceLoops (G : List PieceEntry) (pe : PieceEntry) (f : Nat × Nat) :
    (pieceLoops G pe).countP (fun a => a.2.2 == BVar.loop f)
      = if 1 < pe.fixes.length then (pe.fixes.map Prod.fst).count f else 0 := by
  unfold pieceLoops
  split
  · rw [List.countP_map, List.count_eq_countP, List.countP_map]
    apply List.countP_congr
    intro hf _
    simp only [Function.comp]
    rw [loop_beq]
  · simp

theorem countLoops_le (G : List PieceEntry) (f : Nat × Nat) (X : List PieceEntry) :
    (X.flatMap (pieceLoops G)).countP (fun a => a.2.2 == BVar.loop f)
      ≤ (X.flatMap (fun pe => pe.fixes.map Prod.fst)).count f := by
  induction X with
  | nil => simp
  | cons pe X ih =>
    simp only [List.flatMap_cons, List.countP_append, List.count_append]
    have h := countP_pieceLoops G pe f
    rw [h]
    split <;> omega

/-- Claim C6: in the arc list handed to AddCircuit, a piece with a single
    fix (a double) receives no self-loop on its fix-node, while a piece with
    more than one fix receives exactly one self-loop variable per fix-node,
    each of the form (node, node, loop-variable). -/
theorem self_loop_policy (G : List PieceEntry) (hnd : (allFixes G).Nodup)
    (pe : PieceEntry) (hpe : pe ∈ G) (f : Nat × Nat)
    (hf : f ∈ pe.fixes.map Prod.fst) :
    (pe.fixes.length = 1 →
      (circuitLoops G).countP (fun a => a.2.2 == BVar.loop f) = 0) ∧
    (1 < pe.fixes.length →
      (circuitLoops G).countP (fun a => a.2.2 == BVar.loop f) = 1 ∧
      (fixIdx G f, fixIdx G f, BVar.loop f) ∈ circuitLoops G) := by
  obtain ⟨s, t, hG⟩ := List.append_of_mem hpe
  subst hG
  have hone : (allFixes (s ++ pe :: t)).count f = 1 := by
    apply count_eq_one_of_nodup_mem hnd
    simp only [allFixes, List.mem_flatMap]
    exact ⟨pe, hpe, hf⟩
  have hsplit : (allFixes (s ++ pe :: t)).count f
      = (s.flatMap (fun q => q.fixes.map Prod.fst)).count f
        + ((pe.fixes.map Prod.fst).count f
           + (t.flatMap (fun q => q.fixes.map Prod.fst)).count f) := by
    simp [allFixes, List.count_append]
  have hpos : 0 < (pe.fixes.map Prod.fst).count f := List.count_pos_iff.mpr hf
  have hLsplit : (circuitLoops (s ++ pe :: t)).countP
        (fun a => a.2.2 == BVar.loop f)
      = (s.flatMap (pieceLoops (s ++ pe :: t))).countP
          (fun a => a.2.2 == BVar.loop f)
        + ((pieceLoops (s ++ pe :: t) pe).countP (fun a => a.2.2 == BVar.loop f)
           + (t.flatMap (pieceLoops (s ++ pe :: t))).countP
               (fun a => a.2.2 == BVar.loop f)) := by
    simp [circuitLoops, List.countP_append]
  have hLs := countLoops_le (s ++ pe :: t) f s
  have hLt := countLoops_le (s ++ pe :: t) f t
  have hpeL := countP_pieceLoops (s ++ pe :: t) pe f
  refine ⟨?_, ?_⟩
  · intro h1
    rw [hLsplit]
    rw [hpeL, if_neg (by omega)]
    omega
  · intro h2
    refine ⟨?_, ?_⟩
    · rw [hLsplit]
      rw [hpeL, if_pos h2]
      omega
    · simp only [circuitLoops, List.mem_flatMap]
      refine ⟨pe, hpe, ?_⟩
      unfold pieceLoops
      rw [if_pos h2]
      simp only [List.mem_map]
      simp only [List.mem_map] at hf
      obtain ⟨hfx, hmem, hfeq⟩ := hf
      exact ⟨hfx, hmem, by rw [hfeq]⟩

/-- Witness for claim C6: in the size-1 graph, the double (0, 0) has one fix
    and no loop, the mixed piece (1, 0) has two fixes and one loop per fix. -/
theorem self_loop_policy_witness :
    (allFixes (dominoGraph 1)).Nodup ∧
    (⟨(1, 0), [((1, 0), [(0, 0)]), ((0, 1), [(1, 1)])]⟩ : PieceEntry)
        ∈ dominoGraph 1 ∧
    ((1 : Nat), (0 : Nat)) ∈ (⟨(1, 0), [((1, 0), [(0, 0)]), ((0, 1), [(1, 1)])]⟩ :
        PieceEntry).fixes.map Prod.fst ∧
    (((⟨(1, 0), [((1, 0), [(0, 0)]), ((0, 1), [(1, 1)])]⟩ :
          PieceEntry).fixes.length = 1 →
      (circuitLoops (dominoGraph 1)).countP
          (fun a => a.2.2 == BVar.loop ((1 : Nat), (0 : Nat))) = 0) ∧
    (1 < (⟨(1, 0), [((1, 0), [(0, 0)]), ((0, 1), [(1, 1)])]⟩ :
          PieceEntry).fixes.length →
      (circuitLoops (dominoGraph 1)).countP
          (fun a => a.2.2 == BVar.loop ((1 : Nat), (0 : Nat))) = 1 ∧
      (fixIdx (dominoGraph 1) ((1 : Nat), (0 : Nat)),
       fixIdx (dominoGraph 1) ((1 : Nat), (0 : Nat)),
       BVar.loop ((1 : Nat), (0 : Nat))) ∈ circuitLoops (dominoGraph 1))) :=
  ⟨by decide, by decide, by decide,
    self_loop_policy (dominoGraph 1) (by decide)
      ⟨(1, 0), [((1, 0), [(0, 0)]), ((0, 1), [(1, 1)])]⟩ (by decide)
      ((1 : Nat), (0 : Nat)) (by decide)⟩

theorem normRow_first {d : List (Int × Int)} {lx ly : Int} {h i : Nat}
    {x : Int × Int} (hx : x ∈ normRow d lx ly h i) : x.1 = (i : Int) := by
  simp only [normRow, List.mem_filterMap] at hx
  obtain ⟨j, _, hj⟩ := hx
  split at hj
  · injection hj with hj2
    rw [← hj2]
  · cases hj

theorem normRow_pairwise (d : List (Int × Int)) (lx ly : Int) (h i : Nat) :
    (normRow d lx ly h i).Pairwise lexLt := by
  unfold normRow
  rw [List.pairwise_filterMap]
  refine List.Pairwise.imp ?_ (List.pairwise_lt_range h)
  intro j1 j2 hj b hb b2 hb2
  split at hb
  · split at hb2
    · simp only [Option.mem_some_iff] at hb hb2
      subst hb
      subst hb2
      right
      refine ⟨rfl, ?_⟩
      show (j1 : Int) < (j2 : Int)
      exact_mod_cast hj
    · cases hb2
  · cases hb

theorem normGrid_pairwise (d : List (Int × Int)) (lx ly : Int) (w h : Nat) :
    (normGrid d lx ly w h).Pairwise lexLt := by
  unfold normGrid
  apply List.pairwise_flatMap.mpr
  refine ⟨fun i _ => normRow_pairwise d lx ly h i, ?_⟩
  refine List.Pairwise.imp ?_ (List.pairwise_lt_range w)
  intro i1 i2 hi x hx y hy
  left
  rw [normRow_first hx, normRow_first hy]
  exact_mod_cast hi

theorem normalisePts_pairwise (d : List (Int × Int)) :
    (normalisePts d).Pairwise lexLt := by
  cases d with
  | nil => simp [normalisePts]
  | cons p rest => exact normGrid_pairwise _ _ _ _ _

theorem lexLt_ne {a b : Int × Int} (h : lexLt a b) : a ≠ b := by
  rintro rfl
  rcases h with h | ⟨_, h⟩
  · exact absurd h (lt_irrefl _)
  · exact absurd h (lt_irrefl _)

theorem sorted_canonical {A B : List (Int × Int)}
    (hA : A.Pairwise lexLt) (hB : B.Pairwise lexLt)
    (h : A.toFinset = B.toFinset) : A = B :=
  List.eq_of_perm_of_sorted
    (List.perm_of_nodup_nodup_toFinset_eq
      (List.Pairwise.imp (fun hab => lexLt_ne hab) hA)
      (List.Pairwise.imp (fun hab => lexLt_ne hab) hB) h)
    hA hB

/-- Claim C8: the orientation library checks every element of the symmetry
    group, re-normalises each image, and deduplicates by content, so the
    returned orientation set is exhaustive (the normalised image of every
    group element index below 8 is present) and minimal (the returned lists
    are pairwise distinct, and two returned orientations equal as point-sets
    are the same orientation); and in the generated domino graph a double
    piece carries exactly 1 fix, a non-double piece exactly 2, with no
    duplicate fix inside a piece. -/
theorem orientation_canonicalization (base : List (Int × Int)) (f : Nat)
    (hf : f < 8) (size : Nat) (pe : PieceEntry) (hpe : pe ∈ dominoGraph size) :
    normalisePts (squareP f base) ∈ fixOrientations base ∧
    (fixOrientations base).Nodup ∧
    (∀ A ∈ fixOrientations base, ∀ B ∈ fixOrientations base,
      A.toFinset = B.toFinset → A = B) ∧
    (pe.piece.1 = pe.piece.2 → pe.fixes.length = 1) ∧
    (pe.piece.1 ≠ pe.piece.2 → pe.fixes.length = 2) ∧
    (pe.fixes.map Prod.fst).Nodup := by
  have hmaps : ∀ A ∈ fixOrientations base, A.Pairwise lexLt := by
    intro A hA
    rw [fixOrientations, List.mem_dedup] at hA
    obtain ⟨g, _, hg⟩ := List.mem_map.mp hA
    rw [← hg]
    exact normalisePts_pairwise _
  simp only [dominoGraph, List.mem_map] at hpe
  obtain ⟨d, hdmem, hdeq⟩ := hpe
  have hfst : pe.fixes.map Prod.fst = fixesOf d := by
    rw [← hdeq]
    simp [List.map_map, Function.comp_def]
  have hlen : pe.fixes.length = (fixesOf d).length := by
    rw [← hdeq]
    simp
  have hpc : pe.piece = d := by rw [← hdeq]
  refine ⟨?_, List.nodup_dedup _, ?_, ?_, ?_, ?_⟩
  · rw [fixOrientations, List.mem_dedup]
    exact List.mem_map.mpr ⟨f, List.mem_range.mpr hf, rfl⟩
  · intro A hA B hB hset
    exact sorted_canonical (hmaps A hA) (hmaps B hB) hset
  · intro hd2
    rw [hlen]
    rw [hpc] at hd2
    simp [fixesOf, hd2]
  · intro hd2
    rw [hlen]
    rw [hpc] at hd2
    simp [fixesOf, hd2]
  · rw [hfst]
    exact fixesOf_nodup d

/-- Witness for claim C8 at the domino shape [(0,0), (1,0)], group element 1,
    and the size-1 graph entry of the double (0, 0). -/
theorem orientation_canonicalization_witness :
    (1 : Nat) < 8 ∧
    (⟨(0, 0), [((0, 0), [(0, 1)])]⟩ : PieceEntry) ∈ dominoGraph 1 ∧
    (normalisePts (squareP 1 [((0 : Int), (0 : Int)), (1, 0)])
        ∈ fixOrientations [((0 : Int), (0 : Int)), (1, 0)] ∧
    (fixOrientations [((0 : Int), (0 : Int)), (1, 0)]).Nodup ∧
    (∀ A ∈ fixOrientations [((0 : Int), (0 : Int)), (1, 0)],
      ∀ B ∈ fixOrientations [((0 : Int), (0 : Int)), (1, 0)],
        A.toFinset = B.toFinset → A = B) ∧
    ((⟨(0, 0), [((0, 0), [(0, 1)])]⟩ : PieceEntry).piece.1
        = (⟨(0, 0), [((0, 0), [(0, 1)])]⟩ : PieceEntry).piece.2 →
      (⟨(0, 0), [((0, 0), [(0, 1)])]⟩ : PieceEntry).fixes.length = 1) ∧
    ((⟨(0, 0), [((0, 0), [(0, 1)])]⟩ : PieceEntry).piece.1
        ≠ (⟨(0, 0), [((0, 0), [(0, 1)])]⟩ : PieceEntry).piece.2 →
      (⟨(0, 0), [((0, 0), [(0, 1)])]⟩ : PieceEntry).fixes.length = 2) ∧
    ((⟨(0, 0), [((0, 0), [(0, 1)])]⟩ : PieceEntry).fixes.map Prod.fst).Nodup) :=
  ⟨by decide, by decide,
    orientation_canonicalization [((0 : Int), (0 : Int)), (1, 0)] 1 (by decide) 1
      ⟨(0, 0), [((0, 0), [(0, 1)])]⟩ (by decide)⟩

theorem trueCount_singleton (b : Bool) : trueCount [b] = if b then 1 else 0 := by
  cases b <;> simp [trueCount]

theorem mem_buildModel_of_placements {G : List PieceEntry} {S : SpaceL}
    {c : Constr} (h : c ∈ setPlacementsCs G S) : c ∈ buildModel G S :=
  List.mem_append.mpr (Or.inr h)

theorem mem_buildModel_of_circuit {G : List PieceEntry} {S : SpaceL}
    {c : Constr} (h : c ∈ setCircuitCs G) : c ∈ buildModel G S :=
  List.mem_append.mpr (Or.inl h)

theorem cell_cover_mem (G : List PieceEntry) (S : SpaceL)
    (e : (Int × Int) × Option Nat) (he : e ∈ S) :
    Constr.sumEq (cellVars G e) 1 ∈ setPlacementsCs G S := by
  unfold setPlacementsCs
  simp only [List.mem_append]
  refine Or.inl (Or.inl (Or.inr ?_))
  exact List.mem_flatMap.mpr ⟨e, he, List.mem_cons_self _ _⟩

theorem fix_linkage_mem (G : List PieceEntry) (S : SpaceL) (f : Nat × Nat)
    (hf : f ∈ allFixes G) (r : Bool) :
    Constr.sumEqVar (roleVars S f r) (BVar.fix f) ∈ setPlacementsCs G S := by
  unfold setPlacementsCs
  simp only [List.mem_append]
  refine Or.inl (Or.inl (Or.inl (Or.inr ?_)))
  refine List.mem_flatMap.mpr ⟨f, hf, ?_⟩
  cases r <;> simp

/-- Claim C3: for every cell of the space the model carries the constraint
    that the placement booleans at that cell sum to exactly 1, and for every
    fix it carries the constraints that its head placements sum to its
    activity variable and likewise its tail placements; consequently, in any
    satisfying assignment, each cell holds exactly one half and an active
    fix occupies exactly one head-cell and one tail-cell while an inactive
    fix occupies none. -/
theorem exact_cover_and_fix_linkage (G : List PieceEntry) (S : SpaceL)
    (e : (Int × Int) × Option Nat) (he : e ∈ S) (f : Nat × Nat)
    (hf : f ∈ allFixes G) :
    Constr.sumEq (cellVars G e) 1 ∈ buildModel G S ∧
    Constr.sumEqVar (roleVars S f true) (BVar.fix f) ∈ buildModel G S ∧
    Constr.sumEqVar (roleVars S f false) (BVar.fix f) ∈ buildModel G S ∧
    (∀ sig : BVar → Bool, modelSat G S sig →
      trueCount ((cellVars G e).map sig) = 1 ∧
      trueCount ((roleVars S f true).map sig)
        = (if sig (BVar.fix f) then 1 else 0) ∧
      trueCount ((roleVars S f false).map sig)
        = (if sig (BVar.fix f) then 1 else 0)) := by
  have h1 := mem_buildModel_of_placements (S := S) (cell_cover_mem G S e he)
  have h2 := mem_buildModel_of_placements (S := S) (fix_linkage_mem G S f hf true)
  have h3 := mem_buildModel_of_placements (S := S) (fix_linkage_mem G S f hf false)
  refine ⟨h1, h2, h3, ?_⟩
  intro sig hsat
  have e1 := hsat _ h1
  have e2 := hsat _ h2
  have e3 := hsat _ h3
  simp only [evalC] at e1 e2 e3
  rw [trueCount_singleton] at e2 e3
  exact ⟨e1, e2, e3⟩

/-- Witness for claim C3 with the 3-piece graph on the 2 by 3 region, cell
    (0, 0) and fix (0, 1). -/
theorem exact_cover_and_fix_linkage_witness :
    (((0 : Int), (0 : Int)), (none : Option Nat)) ∈ demoSpace ∧
    ((0 : Nat), (1 : Nat)) ∈ allFixes demoGraph ∧
    (Constr.sumEq (cellVars demoGraph (((0 : Int), (0 : Int)), none)) 1
        ∈ buildModel demoGraph demoSpace ∧
    Constr.sumEqVar (roleVars demoSpace ((0 : Nat), (1 : Nat)) true)
        (BVar.fix ((0 : Nat), (1 : Nat))) ∈ buildModel demoGraph demoSpace ∧
    Constr.sumEqVar (roleVars demoSpace ((0 : Nat), (1 : Nat)) false)
        (BVar.fix ((0 : Nat), (1 : Nat))) ∈ buildModel demoGraph demoSpace ∧
    (∀ sig : BVar → Bool, modelSat demoGraph demoSpace sig →
      trueCount ((cellVars demoGraph (((0 : Int), (0 : Int)), none)).map sig) = 1 ∧
      trueCount ((roleVars demoSpace ((0 : Nat), (1 : Nat)) true).map sig)
        = (if sig (BVar.fix ((0 : Nat), (1 : Nat))) then 1 else 0) ∧
      trueCount ((roleVars demoSpace ((0 : Nat), (1 : Nat)) false).map sig)
        = (if sig (BVar.fix ((0 : Nat), (1 : Nat))) then 1 else 0))) :=
  ⟨by decide, by decide,
    exact_cover_and_fix_linkage demoGraph demoSpace
      (((0 : Int), (0 : Int)), none) (by decide)
      ((0 : Nat), (1 : Nat)) (by decide)⟩

theorem mem_adjHalfVars {S : SpaceL} {c : Int × Int} {f : Nat × Nat} {v : BVar} :
    v ∈ adjHalfVars S c f ↔
      ∃ ij ∈ adjCells S c, placeDefined S ij f false = true ∧
        v = BVar.place ij f false := by
  simp only [adjHalfVars, List.mem_filterMap]
  constructor
  · rintro ⟨ij, hij, hv⟩
    split at hv
    · rename_i hdef
      injection hv with hv2
      exact ⟨ij, hij, hdef, hv2.symm⟩
    · cases hv
  · rintro ⟨ij, hij, hdef, rfl⟩
    exact ⟨ij, hij, by rw [if_pos hdef]⟩

theorem adjacency_mem (G : List PieceEntry) (S : SpaceL)
    (e : (Int × Int) × Option Nat) (he : e ∈ S) (f : Nat × Nat)
    (hf : f ∈ allFixes G) (hd : roleDef e.2 f true = true) :
    Constr.boolOr (adjHalfVars S e.1 f) [BVar.place e.1 f true]
      ∈ setPlacementsCs G S := by
  unfold setPlacementsCs
  simp only [List.mem_append]
  refine Or.inl (Or.inl (Or.inr ?_))
  refine List.mem_flatMap.mpr ⟨e, he, ?_⟩
  refine List.mem_cons_of_mem _ ?_
  refine List.mem_filterMap.mpr ⟨f, hf, ?_⟩
  rw [if_pos hd]

/-- Claim C4: for every fix and every cell where its head placement variable
    exists, the model carries a BoolOr over the same fix's tail placements at
    the orthogonally adjacent in-space cells, enforced only by the head
    placement; hence in any satisfying assignment a true head placement has
    the same fix's tail placement true at some orthogonally adjacent cell. -/
theorem tile_half_adjacency (G : List PieceEntry) (S : SpaceL) (f : Nat × Nat)
    (hf : f ∈ allFixes G) (e : (Int × Int) × Option Nat) (he : e ∈ S)
    (hd : roleDef e.2 f true = true) :
    Constr.boolOr (adjHalfVars S e.1 f) [BVar.place e.1 f true]
      ∈ buildModel G S ∧
    (∀ sig : BVar → Bool, modelSat G S sig →
      sig (BVar.place e.1 f true) = true →
      ∃ ij ∈ adjCells S e.1, placeDefined S ij f false = true ∧
        sig (BVar.place ij f false) = true) := by
  have h1 := mem_buildModel_of_placements (S := S) (adjacency_mem G S e he f hf hd)
  refine ⟨h1, ?_⟩
  intro sig hsat hplace
  have e1 := hsat _ h1
  simp only [evalC] at e1
  have := e1 (by intro x hx; rw [List.mem_singleton.mp hx]; exact hplace)
  obtain ⟨l, hl, hlt⟩ := this
  obtain ⟨ij, hij, hdef, rfl⟩ := mem_adjHalfVars.mp hl
  exact ⟨ij, hij, hdef, hlt⟩

/-- Witness for claim C4 with the 3-piece graph on the 2 by 3 region, fix
    (0, 1) and cell (0, 0). -/
theorem tile_half_adjacency_witness :
    ((0 : Nat), (1 : Nat)) ∈ allFixes demoGraph ∧
    (((0 : Int), (0 : Int)), (none : Option Nat)) ∈ demoSpace ∧
    roleDef (none : Option Nat) ((0 : Nat), (1 : Nat)) true = true ∧
    (Constr.boolOr (adjHalfVars demoSpace ((0 : Int), (0 : Int)) ((0 : Nat), (1 : Nat)))
        [BVar.place ((0 : Int), (0 : Int)) ((0 : Nat), (1 : Nat)) true]
        ∈ buildModel demoGraph demoSpace ∧
    (∀ sig : BVar → Bool, modelSat demoGraph demoSpace sig →
      sig (BVar.place ((0 : Int), (0 : Int)) ((0 : Nat), (1 : Nat)) true) = true →
      ∃ ij ∈ adjCells demoSpace ((0 : Int), (0 : Int)),
        placeDefined demoSpace ij ((0 : Nat), (1 : Nat)) false = true ∧
        sig (BVar.place ij ((0 : Nat), (1 : Nat)) false) = true)) :=
  ⟨by decide, by decide, by decide,
    tile_half_adjacency demoGraph demoSpace ((0 : Nat), (1 : Nat)) (by decide)
      (((0 : Int), (0 : Int)), none) (by decide) (by decide)⟩

theorem glue_mem (G : List PieceEntry) (S : SpaceL) (pe : PieceEntry)
    (hpe : pe ∈ G) (hf : (Nat × Nat) × List (Nat × Nat)) (hmem : hf ∈ pe.fixes)
    (t : Nat × Nat) (ht : t ∈ hf.2) (e : (Int × Int) × Option Nat) (he : e ∈ S)
    (hd : roleDef e.2 hf.1 true = true) :
    Constr.boolOr (adjHalfVars S e.1 t)
        [BVar.place e.1 hf.1 true, BVar.arc hf.1 t]
      ∈ setPlacementsCs G S := by
  unfold setPlacementsCs
  simp only [List.mem_append]
  refine Or.inl (Or.inr ?_)
  refine List.mem_flatMap.mpr ⟨pe, hpe, ?_⟩
  refine List.mem_flatMap.mpr ⟨hf, hmem, ?_⟩
  refine List.mem_flatMap.mpr ⟨t, ht, ?_⟩
  refine List.mem_filterMap.mpr ⟨e, he, ?_⟩
  rw [if_pos hd]

/-- Claim C1: for every arc (h, t) of the graph and every cell where the
    head fix's role-1 placement variable exists (in chain terms, the cell
    carrying the trailing half of head-fix h), the model carries a BoolOr
    over tail-fix t's role-0 placements (its leading half) at the
    orthogonally adjacent in-space cells, enforced only under both the head
    placement and the arc boolean; hence in any satisfying assignment, when
    the arc is used and that placement is true, some orthogonally adjacent
    in-space cell carries a placement of tail-fix t. -/
theorem glue_arc_to_placement (G : List PieceEntry) (S : SpaceL)
    (pe : PieceEntry) (hpe : pe ∈ G) (hf : (Nat × Nat) × List (Nat × Nat))
    (hmem : hf ∈ pe.fixes) (t : Nat × Nat) (ht : t ∈ hf.2)
    (e : (Int × Int) × Option Nat) (he : e ∈ S)
    (hd : roleDef e.2 hf.1 true = true) :
    Constr.boolOr (adjHalfVars S e.1 t)
        [BVar.place e.1 hf.1 true, BVar.arc hf.1 t] ∈ buildModel G S ∧
    (∀ sig : BVar → Bool, modelSat G S sig →
      sig (BVar.arc hf.1 t) = true →
      sig (BVar.place e.1 hf.1 true) = true →
      ∃ ij ∈ adjCells S e.1, placeDefined S ij t false = true ∧
        sig (BVar.place ij t false) = true) := by
  have h1 := mem_buildModel_of_placements (S := S)
    (glue_mem G S pe hpe hf hmem t ht e he hd)
  refine ⟨h1, ?_⟩
  intro sig hsat harc hplace
  have e1 := hsat _ h1
  simp only [evalC] at e1
  have := e1 (by
    intro x hx
    rcases List.mem_cons.mp hx with h | h
    · rw [h]; exact hplace
    · rw [List.mem_singleton.mp h]; exact harc)
  obtain ⟨l, hl, hlt⟩ := this
  obtain ⟨ij, hij, hdef, rfl⟩ := mem_adjHalfVars.mp hl
  exact ⟨ij, hij, hdef, hlt⟩

/-- Witness for claim C1 on the arc from fix (0, 1) to fix (1, 1) of the
    3-piece graph, at cell (0, 0) of the 2 by 3 region. -/
theorem glue_arc_to_placement_witness :
    (⟨(1, 0), [((1, 0), [(0, 0)]), ((0, 1), [(1, 1)])]⟩ : PieceEntry)
        ∈ demoGraph ∧
    (((0 : Nat), (1 : Nat)), [((1 : Nat), (1 : Nat))])
        ∈ (⟨(1, 0), [((1, 0), [(0, 0)]), ((0, 1), [(1, 1)])]⟩ : PieceEntry).fixes ∧
    ((1 : Nat), (1 : Nat)) ∈ [((1 : Nat), (1 : Nat))] ∧
    (((0 : Int), (0 : Int)), (none : Option Nat)) ∈ demoSpace ∧
    roleDef (none : Option Nat) ((0 : Nat), (1 : Nat)) true = true ∧
    (Constr.boolOr (adjHalfVars demoSpace ((0 : Int), (0 : Int)) ((1 : Nat), (1 : Nat)))
        [BVar.place ((0 : Int), (0 : Int)) ((0 : Nat), (1 : Nat)) true,
         BVar.arc ((0 : Nat), (1 : Nat)) ((1 : Nat), (1 : Nat))]
        ∈ buildModel demoGraph demoSpace ∧
    (∀ sig : BVar → Bool, modelSat demoGraph demoSpace sig →
      sig (BVar.arc ((0 : Nat), (1 : Nat)) ((1 : Nat), (1 : Nat))) = true →
      sig (BVar.place ((0 : Int), (0 : Int)) ((0 : Nat), (1 : Nat)) true) = true →
      ∃ ij ∈ adjCells demoSpace ((0 : Int), (0 : Int)),
        placeDefined demoSpace ij ((1 : Nat), (1 : Nat)) false = true ∧
        sig (BVar.place ij ((1 : Nat), (1 : Nat)) false) = true)) :=
  ⟨by decide, by decide, by decide, by decide, by decide,
    glue_arc_to_placement demoGraph demoSpace
      ⟨(1, 0), [((1, 0), [(0, 0)]), ((0, 1), [(1, 1)])]⟩ (by decide)
      (((0 : Nat), (1 : Nat)), [((1 : Nat), (1 : Nat))]) (by decide)
      ((1 : Nat), (1 : Nat)) (by decide)
      (((0 : Int), (0 : Int)), none) (by decide) (by decide)⟩

theorem trueCount_map {α : Type} (l : List α) (g : α → Bool) :
    trueCount (l.map g) = l.countP g := by
  rw [trueCount, List.count_eq_countP, List.countP_map]
  apply List.countP_congr
  intro x _
  simp [Function.comp]

theorem sum_map_one {α : Type} (l : List α) :
    (l.map (fun _ => (1 : Nat))).sum = l.length := by
  induction l with
  | nil => rfl
  | cons a l ih => simp [ih, Nat.add_comm]

theorem countP_partition {α : Type} (p : α → Bool) (key : α → Nat) :
    ∀ (ks : List Nat) (l : List α), ks.Nodup → (∀ a ∈ l, key a ∈ ks) →
      (ks.map (fun k => (l.filter (fun a => key a == k)).countP p)).sum
        = l.countP p := by
  intro ks
  induction ks with
  | nil =>
    intro l _ hcov
    have hl : l = [] := by
      cases l with
      | nil => rfl
      | cons a l => exact absurd (hcov a (List.mem_cons_self a l)) (by simp)
    subst hl
    simp
  | cons k ks ih =>
    intro l hnd hcov
    have hk : k ∉ ks := (List.nodup_cons.mp hnd).1
    have hnd2 : ks.Nodup := (List.nodup_cons.mp hnd).2
    have hsplit := List.countP_eq_countP_filter_add l p (fun a => key a == k)
    have hcov2 : ∀ a ∈ l.filter (fun a => !(key a == k)), key a ∈ ks := by
      intro a ha
      obtain ⟨hal, hne⟩ := List.mem_filter.mp ha
      have := hcov a hal
      rcases List.mem_cons.mp this with h | h
      · rw [h] at hne
        simp at hne
      · exact h
    have heach : ∀ k2 ∈ ks,
        (l.filter (fun a => key a == k2)).countP p
          = ((l.filter (fun a => !(key a == k))).filter
              (fun a => key a == k2)).countP p := by
      intro k2 hk2
      have hne : k2 ≠ k := by
        rintro rfl
        exact hk hk2
      rw [List.filter_filter]
      congr 1
      apply List.filter_congr
      intro a _
      cases hb : key a == k2 with
      | false => simp
      | true =>
        have hak : key a = k2 := by simpa using hb
        have h2 : (key a == k) = false := by
          rw [hak]
          simp only [beq_eq_false_iff_ne, ne_eq]
          exact hne
        simp [h2]
    simp only [List.map_cons, List.sum_cons]
    rw [List.map_congr_left heach]
    rw [ih (l.filter (fun a => !(key a == k))) hnd2 hcov2]
    omega

theorem indexOf_mem_inj {α : Type} [BEq α] [LawfulBEq α] :
    ∀ (l : List α) (x y : α), x ∈ l → y ∈ l →
      l.indexOf x = l.indexOf y → x = y := by
  intro l
  induction l with
  | nil =>
    intro x y hx _ _
    cases hx
  | cons a l ih =>
    intro x y hx hy h
    cases hax : a == x with
    | true =>
      cases hay : a == y with
      | true =>
        have h1 : a = x := eq_of_beq hax
        have h2 : a = y := eq_of_beq hay
        rw [← h1, ← h2]
      | false =>
        rw [List.indexOf_cons, List.indexOf_cons, hax, hay] at h
        simp at h
    | false =>
      cases hay : a == y with
      | true =>
        rw [List.indexOf_cons, List.indexOf_cons, hax, hay] at h
        simp at h
      | false =>
        rw [List.indexOf_cons, List.indexOf_cons, hax, hay] at h
        simp only [cond_false] at h
        have hx2 : x ∈ l := by
          rcases List.mem_cons.mp hx with h1 | h1
          · rw [h1] at hax
            simp at hax
          · exact h1
        have hy2 : y ∈ l := by
          rcases List.mem_cons.mp hy with h1 | h1
          · rw [h1] at hay
            simp at hay
          · exact h1
        exact ih x y hx2 hy2 (by omega)

theorem fst_mem_allFixes {G : List PieceEntry} {pe : PieceEntry}
    {hf : (Nat × Nat) × List (Nat × Nat)} (hpe : pe ∈ G)
    (hmem : hf ∈ pe.fixes) : hf.1 ∈ allFixes G :=
  List.mem_flatMap.mpr ⟨pe, hpe, List.mem_map.mpr ⟨hf, hmem, rfl⟩⟩

theorem circuit_head_mem_idx (G : List PieceEntry) :
    ∀ a ∈ circuitArcs G ++ circuitLoops G,
      a.1 ∈ (allFixes G).map (fixIdx G) := by
  intro a ha
  rcases List.mem_append.mp ha with h | h
  · simp only [circuitArcs, pieceArcs, List.mem_flatMap, List.mem_map] at h
    obtain ⟨pe, hpe, hf, hfmem, t, ht, heq⟩ := h
    refine List.mem_map.mpr ⟨hf.1, fst_mem_allFixes hpe hfmem, ?_⟩
    rw [← heq]
  · simp only [circuitLoops, List.mem_flatMap] at h
    obtain ⟨pe, hpe, hmem⟩ := h
    unfold pieceLoops at hmem
    split at hmem
    · obtain ⟨hf, hfmem, heq⟩ := List.mem_map.mp hmem
      refine List.mem_map.mpr ⟨hf.1, fst_mem_allFixes hpe hfmem, ?_⟩
      rw [← heq]
    · cases hmem

theorem piece_sum_mem (G : List PieceEntry) (pe : PieceEntry) (hpe : pe ∈ G) :
    Constr.sumEq ((pieceArcs G pe).map (fun a => a.2.2)) 1 ∈ setCircuitCs G := by
  unfold setCircuitCs
  simp only [List.mem_append]
  refine Or.inl (Or.inl ?_)
  refine List.mem_flatMap.mpr ⟨pe, hpe, ?_⟩
  exact List.mem_append.mpr (Or.inr (List.mem_singleton_self _))

theorem global_sum_mem (G : List PieceEntry) :
    Constr.sumEq ((circuitArcs G).map (fun a => a.2.2)) G.length
      ∈ setCircuitCs G := by
  unfold setCircuitCs
  simp only [List.mem_append]
  exact Or.inl (Or.inr (List.mem_singleton_self _))

theorem circuit_constr_mem (G : List PieceEntry) :
    Constr.circuit (circuitArcs G ++ circuitLoops G) ∈ setCircuitCs G := by
  unfold setCircuitCs
  simp only [List.mem_append]
  exact Or.inr (List.mem_singleton_self _)

/-- Claim C5: the model carries, per piece, the constraint that its
    non-self-loop outgoing arc booleans sum to 1, and globally that all
    non-self-loop arc booleans sum to the number of pieces; consequently in
    any satisfying assignment the used arcs number exactly the pieces, and
    together with the AddCircuit requirement of one outgoing arc per node
    the used arcs plus the true self-loops number exactly the fix-nodes. -/
theorem circuit_counting (G : List PieceEntry) (S : SpaceL)
    (hnd : (allFixes G).Nodup)
    (hcov : ∀ f ∈ allFixes G,
      fixIdx G f ∈ circuitNodes (circuitArcs G ++ circuitLoops G)) :
    (∀ pe ∈ G, Constr.sumEq ((pieceArcs G pe).map (fun a => a.2.2)) 1
        ∈ buildModel G S) ∧
    Constr.sumEq ((circuitArcs G).map (fun a => a.2.2)) G.length
        ∈ buildModel G S ∧
    (∀ sig : BVar → Bool, modelSat G S sig →
      trueCount ((circuitArcs G).map (fun a => sig a.2.2)) = G.length ∧
      trueCount ((circuitArcs G).map (fun a => sig a.2.2))
          + trueCount ((circuitLoops G).map (fun a => sig a.2.2))
        = (allFixes G).length) := by
  refine ⟨fun pe hpe => mem_buildModel_of_circuit (piece_sum_mem G pe hpe),
    mem_buildModel_of_circuit (global_sum_mem G), ?_⟩
  intro sig hsat
  have hglob := hsat _ (mem_buildModel_of_circuit (S := S) (global_sum_mem G))
  simp only [evalC] at hglob
  rw [List.map_map] at hglob
  have hglob2 : trueCount ((circuitArcs G).map (fun a => sig a.2.2)) = G.length := by
    rw [← hglob]
    rfl
  refine ⟨hglob2, ?_⟩
  have hcirc := hsat _ (mem_buildModel_of_circuit (S := S) (circuit_constr_mem G))
  simp only [evalC, circuitSat] at hcirc
  set L := circuitArcs G ++ circuitLoops G with hL
  have hks : ((allFixes G).map (fixIdx G)).Nodup := by
    refine List.Nodup.map_on ?_ hnd
    intro x hx y hy hxy
    rw [fixIdx, fixIdx] at hxy
    exact indexOf_mem_inj (allFixes G) x y hx hy hxy
  have hpart := countP_partition (fun a => sig a.2.2) (fun a => a.1)
    ((allFixes G).map (fixIdx G)) L hks (circuit_head_mem_idx G)
  have hout : ∀ f ∈ allFixes G,
      (L.filter (fun a => a.1 == fixIdx G f)).countP (fun a => sig a.2.2) = 1 := by
    intro f hf
    have h1 := (hcirc (fixIdx G f) (hcov f hf)).1
    rw [outgoingCount, trueCount_map] at h1
    exact h1
  have hmapped : ((allFixes G).map (fixIdx G)).map
      (fun k => (L.filter (fun a => a.1 == k)).countP (fun a => sig a.2.2))
      = (allFixes G).map (fun _ => (1 : Nat)) := by
    rw [List.map_map]
    apply List.map_congr_left
    intro f hf
    exact hout f hf
  rw [hmapped, sum_map_one] at hpart
  rw [trueCount_map, trueCount_map, ← List.countP_append, ← hpart]

/-- Witness for claim C5 with the 3-piece graph on the 2 by 3 region. -/
theorem circuit_counting_witness :
    (allFixes demoGraph).Nodup ∧
    (∀ f ∈ allFixes demoGraph,
      fixIdx demoGraph f
        ∈ circuitNodes (circuitArcs demoGraph ++ circuitLoops demoGraph)) ∧
    ((∀ pe ∈ demoGraph,
      Constr.sumEq ((pieceArcs demoGraph pe).map (fun a => a.2.2)) 1
        ∈ buildModel demoGraph demoSpace) ∧
    Constr.sumEq ((circuitArcs demoGraph).map (fun a => a.2.2)) demoGraph.length
        ∈ buildModel demoGraph demoSpace ∧
    (∀ sig : BVar → Bool, modelSat demoGraph demoSpace sig →
      trueCount ((circuitArcs demoGraph).map (fun a => sig a.2.2))
          = demoGraph.length ∧
      trueCount ((circuitArcs demoGraph).map (fun a => sig a.2.2))
          + trueCount ((circuitLoops demoGraph).map (fun a => sig a.2.2))
        = (allFixes demoGraph).length)) :=
  ⟨by decide, by decide,
    circuit_counting demoGraph demoSpace (by decide) (by decide)⟩

theorem sum_map_add {β : Type} (m : List β) (f g : β → Nat) :
    (m.map (fun b => f b + g b)).sum = (m.map f).sum + (m.map g).sum := by
  induction m with
  | nil => rfl
  | cons b m ih =>
    simp only [List.map_cons, List.sum_cons, ih]
    omega

theorem sum_map_swap {α β : Type} (l : List α) (m : List β) (g : α → β → Nat) :
    (l.map (fun a => (m.map (g a)).sum)).sum
      = (m.map (fun b => (l.map (fun a => g a b)).sum)).sum := by
  induction l with
  | nil =>
    show (0 : Nat) = _
    symm
    apply List.sum_eq_zero
    intro x hx
    obtain ⟨b, _, hb⟩ := List.mem_map.mp hx
    exact hb.symm
  | cons a l ih =>
    simp only [List.map_cons, List.sum_cons, ih, ← sum_map_add]

theorem countP_filterMap_ite {α β : Type} (p : β → Bool) (l : List α)
    (q : α → Bool) (v : α → β) :
    (l.filterMap (fun a => if q a then some (v a) else none)).countP p
      = (l.map (fun a => if q a then (if p (v a) then 1 else 0) else 0)).sum := by
  induction l with
  | nil => rfl
  | cons a l ih =>
    cases hq : q a with
    | false =>
      simp only [List.filterMap_cons, hq, List.map_cons, List.sum_cons,
        Bool.false_eq_true, if_false]
      rw [ih]
      omega
    | true =>
      simp only [List.filterMap_cons, hq, List.map_cons, List.sum_cons, if_true]
      rw [List.countP_cons, ih]
      omega

/-- Claim C9: on every space with an odd cell count the built model is
    unsatisfiable: the per-cell exact-cover sums and the per-fix head and
    tail linkage sums force the cell count to equal twice the number of
    active fixes, which is even; scenario B (the 3-piece set on the 1 by 5
    region) instantiates this, so the solver must report INFEASIBLE there. -/
theorem odd_space_infeasible (G : List PieceEntry) (S : SpaceL)
    (hodd : S.length % 2 = 1) :
    ∀ sig : BVar → Bool, ¬ modelSat G S sig := by
  intro sig hsat
  have hcell : ∀ e ∈ S, (cellVars G e).countP sig = 1 := by
    intro e he
    have h := hsat _ (mem_buildModel_of_placements (cell_cover_mem G S e he))
    simp only [evalC] at h
    rw [trueCount_map] at h
    exact h
  have hrole : ∀ f ∈ allFixes G, ∀ r : Bool,
      (roleVars S f r).countP sig = (if sig (BVar.fix f) then 1 else 0) := by
    intro f hf r
    have h := hsat _ (mem_buildModel_of_placements (fix_linkage_mem G S f hf r))
    simp only [evalC] at h
    rw [trueCount_map, trueCount_singleton] at h
    exact h
  have htotal : (S.map (fun e => (cellVars G e).countP sig)).sum = S.length := by
    rw [List.map_congr_left hcell, sum_map_one]
  have hexpand : ∀ e : (Int × Int) × Option Nat, (cellVars G e).countP sig
      = ((allFixes G).map
          (fun f => placeTerm sig e f false + placeTerm sig e f true)).sum := by
    intro e
    rw [cellVars, List.countP_flatMap]
    apply congrArg List.sum
    apply List.map_congr_left
    intro f _
    simp only [Function.comp]
    rw [countP_filterMap_ite]
    simp [placeTerm]
  have hrole_expand : ∀ (f : Nat × Nat) (r : Bool),
      (roleVars S f r).countP sig = (S.map (fun e => placeTerm sig e f r)).sum := by
    intro f r
    rw [roleVars, countP_filterMap_ite]
    rfl
  have key : S.length
      = 2 * ((allFixes G).map (fun f => if sig (BVar.fix f) then 1 else 0)).sum := by
    calc S.length
        = (S.map (fun e => (cellVars G e).countP sig)).sum := htotal.symm
      _ = (S.map (fun e => ((allFixes G).map
            (fun f => placeTerm sig e f false + placeTerm sig e f true)).sum)).sum := by
          exact congrArg List.sum (List.map_congr_left (fun e _ => hexpand e))
      _ = ((allFixes G).map (fun f => (S.map
            (fun e => placeTerm sig e f false + placeTerm sig e f true)).sum)).sum :=
          sum_map_swap S (allFixes G)
            (fun e f => placeTerm sig e f false + placeTerm sig e f true)
      _ = ((allFixes G).map (fun f =>
            (S.map (fun e => placeTerm sig e f false)).sum
              + (S.map (fun e => placeTerm sig e f true)).sum)).sum := by
          exact congrArg List.sum (List.map_congr_left
            (fun f _ => sum_map_add S _ _))
      _ = ((allFixes G).map (fun f =>
            (if sig (BVar.fix f) then 1 else 0)
              + (if sig (BVar.fix f) then 1 else 0))).sum := by
          refine congrArg List.sum (List.map_congr_left ?_)
          intro f hf
          rw [← hrole_expand f false, ← hrole_expand f true,
            hrole f hf false, hrole f hf true]
      _ = 2 * ((allFixes G).map (fun f => if sig (BVar.fix f) then 1 else 0)).sum := by
          rw [sum_map_add]
          omega
  omega

/-- Witness for claim C9: scenario B, the 3-piece graph on the 1 by 5 region. -/
theorem odd_space_infeasible_witness :
    oddSpace.length % 2 = 1 ∧
    (∀ sig : BVar → Bool, ¬ modelSat demoGraph oddSpace sig) :=
  ⟨by decide, odd_space_infeasible demoGraph oddSpace (by decide)⟩
